import Mathlib

/-
Verification of the oplog core declared in src/mongo/db/repl/oplog.h:
slot allocation (getNextOpTime / getNextOpTimes), entry construction
(logOp validation), the log writer (logOp / logInsertOps), and the apply
engine (applyOperation_inlock / applyCommand_inlock).  The header declares
the interface only; behaviour is modelled from the specification document,
faithful to its words, with the header supplying signatures and defaults.
-/

namespace MongoOplog

/-- A replication optime, mirroring `repl::OpTime` as used in oplog.h: a
logical-clock timestamp paired with an election term.  The spec's total
order compares term first, then timestamp. -/
structure OpTime where
  term : Nat
  timestamp : Nat
deriving DecidableEq, Repr

/-- Strict total order on optimes: compare by term first, then timestamp. -/
def OpTime.lt (a b : OpTime) : Prop :=
  a.term < b.term ∨ (a.term = b.term ∧ a.timestamp < b.timestamp)

instance (a b : OpTime) : Decidable (OpTime.lt a b) := by
  unfold OpTime.lt
  exact inferInstance

theorem OpTime.lt_trans {a b c : OpTime} (h1 : OpTime.lt a b) (h2 : OpTime.lt b c) :
    OpTime.lt a c := by
  unfold OpTime.lt at *
  omega

theorem OpTime.lt_ne {a b : OpTime} (h : OpTime.lt a b) : a ≠ b := by
  intro he
  subst he
  unfold OpTime.lt at h
  omega

/-- Modelled from the spec: the chain-hash mixing function.  oplog.h stores
the hash as a 64-bit integer in `OplogSlot`; the spec (§4.1, §9) requires a
deterministic combination of the previous slot's hash, the term and the
timestamp, reduced modulo 2^64, with the exact bit pattern left open.  Only
determinism and the chaining invariant are load-bearing. -/
def hashMix (prev term ts : Nat) : Nat :=
  (prev * 6364136223846793005 + term * 1442695040888963407 + ts + 1) % (2 ^ 64)

/-- `OplogSlot` from oplog.h: the allocated optime together with the chained
hash field (`std::int64_t hash`, modelled as a natural below 2^64). -/
structure OplogSlot where
  opTime : OpTime
  hash : Nat
deriving DecidableEq, Repr

/-- Modelled from the spec: the process-wide allocator state behind
`getNextOpTime`/`getNextOpTimes` (§4.1, §9 `ReplicationLogContext`): the
current term, the last issued logical-clock timestamp, and the chain hash of
the most recently allocated slot.  Allocation is a short critical section
(§5), so concurrent callers serialize and each call is modelled as atomic. -/
structure AllocState where
  term : Nat
  lastTs : Nat
  lastHash : Nat
deriving DecidableEq, Repr

/-- Allocate a single slot: advance the clock by one tick and chain the hash
from the most recently allocated slot. -/
def allocOne (st : AllocState) : OplogSlot × AllocState :=
  (⟨⟨st.term, st.lastTs + 1⟩, hashMix st.lastHash st.term (st.lastTs + 1)⟩,
   ⟨st.term, st.lastTs + 1, hashMix st.lastHash st.term (st.lastTs + 1)⟩)

/-- `getNextOpTimes(opCtx, count)` from oplog.h: reserve `count` consecutive
clock advances atomically and return the slots with their freshly chained
hashes. -/
def getNextOpTimes (st : AllocState) : Nat → List OplogSlot × AllocState
  | 0 => ([], st)
  | Nat.succ n =>
      let s := allocOne st
      let r := getNextOpTimes s.2 n
      (s.1 :: r.1, r.2)

/-- `getNextOpTime(opCtx)` from oplog.h: the single-slot shortcut. -/
def getNextOpTime (st : AllocState) : OplogSlot × AllocState :=
  allocOne st

/-- A serialized history of allocation calls: each element of `counts` is one
`getNextOpTimes` call's requested count.  Concurrent callers serialize on the
allocator's critical section (§5), so every interleaving is some such list. -/
def allocSeq (st : AllocState) : List Nat → List (List OplogSlot) × AllocState
  | [] => ([], st)
  | n :: rest =>
      let r := getNextOpTimes st n
      let rs := allocSeq r.2 rest
      (r.1 :: rs.1, rs.2)

/-- Every slot in `l` carries a hash chained from its predecessor, the first
one chaining from `h0`. -/
def chainedFrom (h0 : Nat) : List OplogSlot → Prop
  | [] => True
  | s :: rest => s.hash = hashMix h0 s.opTime.term s.opTime.timestamp ∧ chainedFrom s.hash rest

/-- The hash of the last slot of `l`, or `h0` when `l` is empty. -/
def lastHashD (h0 : Nat) : List OplogSlot → Nat
  | [] => h0
  | s :: rest => lastHashD s.hash rest

/-- Recompute the chain of hashes from an initial hash and the stored
optimes alone. -/
def recomputeHashes (h0 : Nat) : List OpTime → List Nat
  | [] => []
  | t :: rest =>
      hashMix h0 t.term t.timestamp :: recomputeHashes (hashMix h0 t.term t.timestamp) rest

theorem getNextOpTimes_length (n : Nat) : ∀ st : AllocState,
    ((getNextOpTimes st n).1).length = n := by
  induction n with
  | zero => intro st; simp [getNextOpTimes]
  | succ n ih => intro st; simp [getNextOpTimes, ih]

theorem getNextOpTimes_state_term (n : Nat) : ∀ st : AllocState,
    ((getNextOpTimes st n).2).term = st.term := by
  induction n with
  | zero => intro st; simp [getNextOpTimes]
  | succ n ih => intro st; simp [getNextOpTimes, ih, allocOne]

theorem getNextOpTimes_state_lastTs (n : Nat) : ∀ st : AllocState,
    ((getNextOpTimes st n).2).lastTs = st.lastTs + n := by
  induction n with
  | zero => intro st; simp [getNextOpTimes]
  | succ n ih => intro st; simp [getNextOpTimes, ih, allocOne]; omega

theorem getNextOpTimes_mem_bounds (n : Nat) : ∀ st : AllocState,
    ∀ s ∈ (getNextOpTimes st n).1,
      s.opTime.term = st.term ∧ st.lastTs < s.opTime.timestamp ∧
        s.opTime.timestamp ≤ st.lastTs + n := by
  induction n with
  | zero => intro st s hs; simp [getNextOpTimes] at hs
  | succ n ih =>
      intro st s hs
      simp only [getNextOpTimes, List.mem_cons] at hs
      rcases hs with h | h
      · subst h; simp [allocOne]
      · have := ih (allocOne st).2 s h
        simp [allocOne] at this
        exact ⟨this.1, by omega, by omega⟩

theorem getNextOpTimes_pairwise (n : Nat) : ∀ st : AllocState,
    ((getNextOpTimes st n).1).Pairwise (fun a b => OpTime.lt a.opTime b.opTime) := by
  induction n with
  | zero => intro st; simp [getNextOpTimes]
  | succ n ih =>
      intro st
      simp only [getNextOpTimes, List.pairwise_cons]
      refine ⟨?_, ih (allocOne st).2⟩
      intro s hs
      have hb := getNextOpTimes_mem_bounds n (allocOne st).2 s hs
      simp [allocOne] at hb
      right
      simp [allocOne]
      omega

theorem getNextOpTimes_chained (n : Nat) : ∀ st : AllocState,
    chainedFrom st.lastHash ((getNextOpTimes st n).1) := by
  induction n with
  | zero => intro st; simp [getNextOpTimes, chainedFrom]
  | succ n ih =>
      intro st
      refine ⟨rfl, ?_⟩
      have := ih (allocOne st).2
      simpa [allocOne] using this

theorem getNextOpTimes_state_lastHash (n : Nat) : ∀ st : AllocState,
    ((getNextOpTimes st n).2).lastHash = lastHashD st.lastHash ((getNextOpTimes st n).1) := by
  induction n with
  | zero => intro st; simp [getNextOpTimes, lastHashD]
  | succ n ih =>
      intro st
      simp only [getNextOpTimes, lastHashD]
      have := ih (allocOne st).2
      simpa [allocOne] using this

theorem chainedFrom_append {l1 l2 : List OplogSlot} : ∀ h0 : Nat,
    chainedFrom h0 l1 → chainedFrom (lastHashD h0 l1) l2 → chainedFrom h0 (l1 ++ l2) := by
  induction l1 with
  | nil => intro h0 _ h2; simpa [lastHashD] using h2
  | cons s rest ih =>
      intro h0 h1 h2
      exact ⟨h1.1, ih s.hash h1.2 h2⟩

theorem lastHashD_append (l1 l2 : List OplogSlot) : ∀ h0 : Nat,
    lastHashD h0 (l1 ++ l2) = lastHashD (lastHashD h0 l1) l2 := by
  induction l1 with
  | nil => intro h0; simp [lastHashD]
  | cons s rest ih => intro h0; simp [lastHashD, ih]

theorem chainedFrom_recompute {l : List OplogSlot} : ∀ h0 : Nat,
    chainedFrom h0 l →
      recomputeHashes h0 (l.map OplogSlot.opTime) = l.map OplogSlot.hash := by
  induction l with
  | nil => intro h0 _; simp [recomputeHashes]
  | cons s rest ih =>
      intro h0 h
      simp only [List.map_cons, recomputeHashes]
      rw [← h.1]
      exact congrArg (s.hash :: ·) (ih s.hash h.2)

theorem chainedFrom_chain {l : List OplogSlot} : ∀ h0 : Nat,
    chainedFrom h0 l →
      List.Chain' (fun a b => b.hash = hashMix a.hash b.opTime.term b.opTime.timestamp) l := by
  induction l with
  | nil => intro h0 _; simp
  | cons s rest ih =>
      intro h0 h
      rcases rest with _ | ⟨t, rest⟩
      · simp
      · refine List.Chain'.cons ?_ (ih s.hash h.2)
        rw [h.2.1, h.1]

theorem allocSeq_state_term (counts : List Nat) : ∀ st : AllocState,
    ((allocSeq st counts).2).term = st.term := by
  induction counts with
  | nil => intro st; simp [allocSeq]
  | cons n rest ih =>
      intro st
      simp [allocSeq, ih, getNextOpTimes_state_term]

theorem allocSeq_state_lastTs (counts : List Nat) : ∀ st : AllocState,
    ((allocSeq st counts).2).lastTs = st.lastTs + counts.sum := by
  induction counts with
  | nil => intro st; simp [allocSeq]
  | cons n rest ih =>
      intro st
      simp [allocSeq, ih, getNextOpTimes_state_lastTs]
      omega

theorem allocSeq_mem_bounds (counts : List Nat) : ∀ st : AllocState,
    ∀ s ∈ ((allocSeq st counts).1).flatten,
      s.opTime.term = st.term ∧ st.lastTs < s.opTime.timestamp ∧
        s.opTime.timestamp ≤ st.lastTs + counts.sum := by
  induction counts with
  | nil => intro st s hs; simp [allocSeq] at hs
  | cons n rest ih =>
      intro st s hs
      simp only [allocSeq, List.flatten_cons, List.mem_append] at hs
      rcases hs with h | h
      · have := getNextOpTimes_mem_bounds n st s h
        refine ⟨this.1, this.2.1, by simp [List.sum_cons]; omega⟩
      · have := ih (getNextOpTimes st n).2 s h
        rw [getNextOpTimes_state_term, getNextOpTimes_state_lastTs] at this
        refine ⟨this.1, by omega, by simp [List.sum_cons]; omega⟩

theorem allocSeq_pairwise (counts : List Nat) : ∀ st : AllocState,
    (((allocSeq st counts).1).flatten).Pairwise (fun a b => OpTime.lt a.opTime b.opTime) := by
  induction counts with
  | nil => intro st; simp [allocSeq]
  | cons n rest ih =>
      intro st
      simp only [allocSeq, List.flatten_cons, List.pairwise_append]
      refine ⟨getNextOpTimes_pairwise n st, ih (getNextOpTimes st n).2, ?_⟩
      intro x hx y hy
      have hxb := getNextOpTimes_mem_bounds n st x hx
      have hyb := allocSeq_mem_bounds rest (getNextOpTimes st n).2 y hy
      rw [getNextOpTimes_state_term, getNextOpTimes_state_lastTs] at hyb
      right
      constructor
      · omega
      · omega

theorem allocSeq_chained (counts : List Nat) : ∀ st : AllocState,
    chainedFrom st.lastHash (((allocSeq st counts).1).flatten) ∧
      ((allocSeq st counts).2).lastHash =
        lastHashD st.lastHash (((allocSeq st counts).1).flatten) := by
  induction counts with
  | nil => intro st; simp [allocSeq, chainedFrom, lastHashD]
  | cons n rest ih =>
      intro st
      simp only [allocSeq, List.flatten_cons]
      have h1 := getNextOpTimes_chained n st
      have h2 := getNextOpTimes_state_lastHash n st
      have h3 := ih (getNextOpTimes st n).2
      constructor
      · exact chainedFrom_append st.lastHash h1 (by rw [← h2]; exact h3.1)
      · rw [lastHashD_append, ← h2]
        exact h3.2

/-- C2: every `getNextOpTimes` call returns exactly `count` slots whose
optimes strictly increase, and across any serialized history of allocation
calls (the allocator's critical section serializes concurrent callers, so
any interleaving is such a history) the full sequence of produced optimes is
strictly increasing with no duplicates. -/
theorem getNextOpTimes_monotone :
    (∀ (st : AllocState) (count : Nat),
        ((getNextOpTimes st count).1).length = count ∧
        ((getNextOpTimes st count).1).Pairwise (fun a b => OpTime.lt a.opTime b.opTime)) ∧
    (∀ (st : AllocState) (counts : List Nat),
        (((allocSeq st counts).1).flatten).Pairwise (fun a b => OpTime.lt a.opTime b.opTime) ∧
        ((((allocSeq st counts).1).flatten).map OplogSlot.opTime).Nodup) := by
  refine ⟨fun st count => ⟨getNextOpTimes_length count st, getNextOpTimes_pairwise count st⟩,
    fun st counts => ⟨allocSeq_pairwise counts st, ?_⟩⟩
  have h := allocSeq_pairwise counts st
  exact List.Pairwise.map OplogSlot.opTime (fun _ _ hab => OpTime.lt_ne hab) h

/-- C3: across any serialized allocation history, each slot's chain hash is
`hashMix` applied to the previous slot's hash and the slot's own term and
timestamp; recomputing hashes from the stored optimes alone reproduces the
stored hashes exactly; and the slots of one `getNextOpTimes` batch chain to
each other in sequence, starting from the allocator's last recorded hash. -/
theorem chain_hash_integrity :
    ∀ (st : AllocState) (counts : List Nat),
      List.Chain' (fun a b => b.hash = hashMix a.hash b.opTime.term b.opTime.timestamp)
        (((allocSeq st counts).1).flatten) ∧
      recomputeHashes st.lastHash ((((allocSeq st counts).1).flatten).map OplogSlot.opTime) =
        (((allocSeq st counts).1).flatten).map OplogSlot.hash ∧
      ∀ count : Nat, chainedFrom st.lastHash ((getNextOpTimes st count).1) := by
  intro st counts
  have h := (allocSeq_chained counts st).1
  exact ⟨chainedFrom_chain st.lastHash h, chainedFrom_recompute st.lastHash h,
    fun count => getNextOpTimes_chained count st⟩

/-- A structured document (the opaque BSONObj of oplog.h, spec §1): an `_id`
key plus named integer fields. -/
structure Doc where
  id : Nat
  fields : List (String × Int)
deriving DecidableEq, Repr

/-- A collection of documents keyed by `_id`. -/
abbrev Collection := List Doc

/-- Whether a document with `_id = i` is present. -/
def hasDoc (c : Collection) (i : Nat) : Bool :=
  c.any (fun x => x.id == i)

/-- Look up a document by `_id`. -/
def findDoc (c : Collection) (i : Nat) : Option Doc :=
  c.find? (fun x => x.id == i)

/-- Insert-or-replace by `_id`: on replay a duplicate key replaces the stored
document instead of failing (the spec's idempotency rule for inserts). -/
def upsertDoc : Collection → Doc → Collection
  | [], d => [d]
  | x :: rest, d => if x.id == d.id then d :: rest else x :: upsertDoc rest d

/-- Remove every document with `_id = i`; removing an absent document is a
successful no-op. -/
def removeDoc : Collection → Nat → Collection
  | [], _ => []
  | x :: rest, i => if x.id == i then removeDoc rest i else x :: removeDoc rest i

/-- Association-list lookup with a default, keyed by namespace name. -/
def assocGetD {α : Type} : List (String × α) → String → α → α
  | [], _, dflt => dflt
  | p :: rest, k, dflt => if p.1 == k then p.2 else assocGetD rest k dflt

/-- Association-list update-or-append, keyed by namespace name. -/
def assocSet {α : Type} : List (String × α) → String → α → List (String × α)
  | [], k, v => [(k, v)]
  | p :: rest, k, v => if p.1 == k then (k, v) :: rest else p :: assocSet rest k v

/-- An index specification: a name and a key pattern over field names. -/
structure IndexSpec where
  name : String
  key : List (String × Int)
deriving DecidableEq, Repr

/-- A specification is well formed when it has a name and a non-empty key
pattern; anything else is malformed. -/
def validIndexSpec (s : IndexSpec) : Bool :=
  s.name != "" && s.key != []

/-- The local database state the apply engine mutates: per-namespace document
collections and per-namespace registered indexes. -/
structure DbState where
  collections : List (String × Collection)
  indexes : List (String × List IndexSpec)
deriving DecidableEq, Repr

/-- The six recognized operation kinds from the logOp doc comment in
oplog.h. -/
inductive OpKind
  | insert
  | update
  | delete
  | command
  | noop
  | dbMarker
deriving DecidableEq, Repr

/-- Decode an `opstr` code exactly as documented in oplog.h: "i" insert,
"u" update, "d" delete, "c" db cmd, "n" no-op, "db" database marker. -/
def parseOpKind (opstr : String) : Option OpKind :=
  if opstr = "i" then some OpKind.insert
  else if opstr = "u" then some OpKind.update
  else if opstr = "d" then some OpKind.delete
  else if opstr = "c" then some OpKind.command
  else if opstr = "n" then some OpKind.noop
  else if opstr = "db" then some OpKind.dbMarker
  else none

/-- A raw non-command oplog operation as handed to `applyOperation_inlock`
(a BSONObj in the header): the kind code, the target namespace, the primary
payload `o`, and the optional criteria document `o2`. -/
structure RawOp where
  opstr : String
  ns : String
  o : Doc
  o2 : Option Doc
deriving DecidableEq, Repr

/-- Whether a Status-like result is success (mirrors `Status::isOK`). -/
def statusOK {α : Type} : Except String α → Bool
  | Except.ok _ => true
  | Except.error _ => false

/-- Modelled from the spec: the state transition of `applyOperation_inlock`
(oplog.h declares only the signature).  Inserts are insert-or-replace so a
replayed duplicate key is not an error; deletes tolerate an absent target;
an update whose target exists replaces it with the update's effective
fields, and a missing target is upserted in steady-state replication but
left untouched (benignly) during initial sync; no-op and database-marker
entries leave the state unchanged; a command kind or an unknown kind code
is a returned failure. -/
def applyOperation (r : RawOp) (inSteadyStateReplication : Bool) (S : DbState) :
    Except String DbState :=
  match parseOpKind r.opstr with
  | none => Except.error "invalid operation type in oplog entry"
  | some OpKind.insert =>
      let c2 := assocSet S.collections r.ns (upsertDoc (assocGetD S.collections r.ns []) r.o)
      Except.ok { S with collections := c2 }
  | some OpKind.update =>
      match r.o2 with
      | none => Except.error "failed to apply update: missing criteria document"
      | some crit =>
          let c := assocGetD S.collections r.ns []
          if hasDoc c crit.id || inSteadyStateReplication then
            let c2 := assocSet S.collections r.ns (upsertDoc c ⟨crit.id, r.o.fields⟩)
            Except.ok { S with collections := c2 }
          else
            Except.ok S
  | some OpKind.delete =>
      let c2 := assocSet S.collections r.ns (removeDoc (assocGetD S.collections r.ns []) r.o.id)
      Except.ok { S with collections := c2 }
  | some OpKind.command =>
      Except.error "commands cannot be applied by the non-command apply path"
  | some OpKind.noop => Except.ok S
  | some OpKind.dbMarker => Except.ok S

/-- Modelled from the spec: `createIndexForApplyOps` from oplog.h.  A
malformed specification is an error; an index that already exists by the
same definition is success (idempotent); a different definition under an
already-used name is an error; otherwise the index is registered. -/
def createIndexForApplyOps (indexSpec : IndexSpec) (indexNss : String) (S : DbState) :
    Except String DbState :=
  if validIndexSpec indexSpec = false then
    Except.error "malformed index specification"
  else
    let idxs := assocGetD S.indexes indexNss []
    if indexSpec ∈ idxs then Except.ok S
    else if ∃ i ∈ idxs, i.name = indexSpec.name then
      Except.error "an index exists under this name with a different definition"
    else
      Except.ok { S with indexes := assocSet S.indexes indexNss (idxs ++ [indexSpec]) }

/-- A parsed command payload for `applyCommand_inlock`, a closed tagged
variant per the spec's design notes (§9). -/
inductive Command
  | createIndexes (ns : String) (spec : IndexSpec)
  | createCollection (ns : String)
  | dropCollection (ns : String)
  | unknownCommand (name : String)
deriving DecidableEq, Repr

/-- Modelled from the spec: `applyCommand_inlock` from oplog.h — applies a
command entry to local namespace-level state, returning (never throwing) a
descriptive failure for unknown commands, malformed index specifications,
or namespaces that cannot be created. -/
def applyCommand_inlock (cmd : Command) (_inSteadyStateReplication : Bool) (S : DbState) :
    Except String DbState :=
  match cmd with
  | Command.createIndexes ns spec =>
      if ns = "" then Except.error "invalid namespace for index creation"
      else createIndexForApplyOps spec ns S
  | Command.createCollection ns =>
      if ns = "" then Except.error "cannot create a namespace with an empty name"
      else if ∃ p ∈ S.collections, p.1 = ns then Except.ok S
      else Except.ok { S with collections := S.collections ++ [(ns, [])] }
  | Command.dropCollection ns =>
      Except.ok { S with collections := S.collections.filter (fun p => p.1 != ns) }
  | Command.unknownCommand _ =>
      Except.error "invalid command in oplog entry"

/-- `IncrementOpsAppliedStatsFn` from oplog.h (`stdx::function<void()>`),
modelled as a transformer of an ambient metrics counter. -/
abbrev IncrementOpsAppliedStatsFn := Nat → Nat

/-- The header's default value `{}` for the stats callback: a callback that
records nothing. -/
def emptyStatsFn : IncrementOpsAppliedStatsFn := fun m => m

/-- `applyOperation_inlock` from oplog.h with its declared default
arguments, `inSteadyStateReplication = false` and an empty stats callback;
on success the callback runs exactly once on the metrics counter. -/
def applyOperation_inlock (r : RawOp) (S : DbState) (m : Nat)
    (inSteadyStateReplication : Bool := false)
    (incrementOpsAppliedStats : IncrementOpsAppliedStatsFn := emptyStatsFn) :
    Except String (DbState × Nat) :=
  match applyOperation r inSteadyStateReplication S with
  | Except.ok S2 => Except.ok (S2, incrementOpsAppliedStats m)
  | Except.error e => Except.error e

theorem upsertDoc_upsertDoc (d : Doc) : ∀ c : Collection,
    upsertDoc (upsertDoc c d) d = upsertDoc c d := by
  intro c
  induction c with
  | nil => simp [upsertDoc]
  | cons x rest ih =>
      by_cases hx : (x.id == d.id) = true
      · simp [upsertDoc, hx]
      · simp only [upsertDoc, hx, Bool.false_eq_true, if_false, if_neg]
        simp [upsertDoc, hx, ih]

theorem hasDoc_upsertDoc (d : Doc) : ∀ c : Collection,
    hasDoc (upsertDoc c d) d.id = true := by
  intro c
  induction c with
  | nil => simp [upsertDoc, hasDoc]
  | cons x rest ih =>
      by_cases hx : (x.id == d.id) = true
      · simp [upsertDoc, hx, hasDoc]
      · simp [upsertDoc, hx, hasDoc] at ih ⊢
        exact ih

theorem findDoc_upsertDoc (d : Doc) : ∀ c : Collection,
    findDoc (upsertDoc c d) d.id = some d := by
  intro c
  induction c with
  | nil => simp [upsertDoc, findDoc, List.find?]
  | cons x rest ih =>
      by_cases hx : (x.id == d.id) = true
      · simp [upsertDoc, hx, findDoc, List.find?]
      · simp [upsertDoc, hx, findDoc, List.find?] at ih ⊢
        exact ih

theorem removeDoc_removeDoc (i : Nat) : ∀ c : Collection,
    removeDoc (removeDoc c i) i = removeDoc c i := by
  intro c
  induction c with
  | nil => simp [removeDoc]
  | cons x rest ih =>
      by_cases hx : (x.id == i) = true
      · simp [removeDoc, hx, ih]
      · simp [removeDoc, hx, ih]

theorem assocGetD_assocSet {α : Type} (k : String) (v dflt : α) : ∀ l : List (String × α),
    assocGetD (assocSet l k v) k dflt = v := by
  intro l
  induction l with
  | nil => simp [assocSet, assocGetD]
  | cons p rest ih =>
      by_cases hp : (p.1 == k) = true
      · simp [assocSet, hp, assocGetD]
      · simp [assocSet, hp, assocGetD, ih]

theorem assocSet_assocSet {α : Type} (k : String) (v : α) : ∀ l : List (String × α),
    assocSet (assocSet l k v) k v = assocSet l k v := by
  intro l
  induction l with
  | nil => simp [assocSet]
  | cons p rest ih =>
      by_cases hp : (p.1 == k) = true
      · simp [assocSet, hp]
      · simp [assocSet, hp, ih]

/-- `OplogLink` from oplog.h: the optional previous-optime link and the
pre-image/post-image optime links; a null optime is modelled as `none`, per
the spec's design notes (§9). -/
structure OplogLink where
  prevOpTime : Option OpTime := none
  preImageOpTime : Option OpTime := none
  postImageOpTime : Option OpTime := none
deriving DecidableEq, Repr

/-- `InsertStatement` from oplog.h: a statement id (default: the
uninitialized marker), an optional preallocated oplog slot, and the document
to insert. -/
structure InsertStatement where
  stmtId : Int := -1
  oplogSlot : Option OplogSlot := none
  doc : Doc
deriving DecidableEq, Repr

/-- The durable oplog record assembled by the entry builder (spec §3):
operation kind, namespace, optional collection identity token, primary
payload, optional criteria payload, session identity, statement id, the
fromMigrate flag, the link structure, and the allocated slot. -/
structure OplogEntry where
  kind : OpKind
  ns : String
  uuid : Option Nat
  doc : Doc
  o2 : Option Doc
  sessionId : Option Nat
  stmtId : Int
  fromMigrate : Bool
  link : OplogLink
  slot : OplogSlot
deriving DecidableEq, Repr

/-- Modelled from the spec: the pure entry builder behind logOp (§4.2).
Validation: the kind code must be one of the six recognized codes; an
update must carry its criteria document and an insert or delete must not;
the namespace must be non-empty, except for the database-marker kind where
it is the database name followed by the trailing separator. -/
def buildEntry (opstr ns : String) (uuid : Option Nat) (doc : Doc) (o2 : Option Doc)
    (sessionId : Option Nat) (stmtId : Int) (fromMigrate : Bool) (link : OplogLink)
    (slot : OplogSlot) : Except String OplogEntry :=
  match parseOpKind opstr with
  | none => Except.error "unrecognized operation kind"
  | some k =>
      if k = OpKind.update ∧ o2 = none then
        Except.error "an update requires its criteria document"
      else if (k = OpKind.insert ∨ k = OpKind.delete) ∧ o2 ≠ none then
        Except.error "a criteria document is only valid for updates"
      else if k = OpKind.dbMarker then
        if ns.endsWith "." then
          Except.ok ⟨k, ns, uuid, doc, o2, sessionId, stmtId, fromMigrate, link, slot⟩
        else
          Except.error "database marker namespace must be a database name with trailing separator"
      else if ns = "" then
        Except.error "namespace must be non-empty"
      else
        Except.ok ⟨k, ns, uuid, doc, o2, sessionId, stmtId, fromMigrate, link, slot⟩

/-- Modelled from the spec: the log writer's state (§4.3) — whether
replication logging is enabled, the allocator state, and the ordered list of
appended entries. -/
structure OplogState where
  enabled : Bool
  alloc : AllocState
  entries : List OplogEntry
deriving DecidableEq, Repr

/-- Modelled from the spec: `logOp` from oplog.h.  Returns the optime of the
entry written to the oplog, or a null optime (`none`) when the oplog was not
modified because replication logging is disabled; invalid input is a
returned validation error. -/
def logOp (opstr ns : String) (uuid : Option Nat) (obj : Doc) (o2 : Option Doc)
    (fromMigrate : Bool) (sessionId : Option Nat) (stmtId : Int) (oplogLink : OplogLink)
    (st : OplogState) : Except String (Option OpTime × OplogState) :=
  if st.enabled = false then Except.ok (none, st)
  else
    let r := getNextOpTime st.alloc
    match buildEntry opstr ns uuid obj o2 sessionId stmtId fromMigrate oplogLink r.1 with
    | Except.error e => Except.error e
    | Except.ok entry =>
        Except.ok (some r.1.opTime, { st with alloc := r.2, entries := st.entries ++ [entry] })

/-- Pair each insert statement with its allocated slot, in input order,
producing the insert entries to append. -/
def buildInsertEntries (ns : String) (uuid : Option Nat) (sessionId : Option Nat)
    (fromMigrate : Bool) : List InsertStatement → List OplogSlot → List OplogEntry
  | [], _ => []
  | _ :: _, [] => []
  | d :: docs, s :: slots =>
      ⟨OpKind.insert, ns, uuid, d.doc, none, sessionId, d.stmtId, fromMigrate, ⟨none, none, none⟩, s⟩ ::
        buildInsertEntries ns uuid sessionId fromMigrate docs slots

/-- Modelled from the spec: `logInsertOps` from oplog.h — the batch insert
path.  It allocates one slot per input statement in one `getNextOpTimes`
call and returns the optime of every insert, in input order; when logging is
disabled it is a no-op returning a null optime per input. -/
def logInsertOps (ns : String) (uuid : Option Nat) (sessionId : Option Nat)
    (docs : List InsertStatement) (fromMigrate : Bool) (st : OplogState) :
    List (Option OpTime) × OplogState :=
  if st.enabled = false then (docs.map (fun _ => none), st)
  else
    let r := getNextOpTimes st.alloc docs.length
    let new := buildInsertEntries ns uuid sessionId fromMigrate docs r.1
    (r.1.map (fun s => some s.opTime),
     { st with alloc := r.2, entries := st.entries ++ new })

/-- Modelled from the spec: the log writer's visibility rule (§4.3).
Entries are identified by their index in allocation order and `durable`
records, per index, whether the underlying append has completed.  Readers
may observe exactly the indexes below `visibleCount durable`: the longest
all-durable front segment of the allocation order.  The writer withholds
visibility of later entries until every earlier hole is filled. -/
def visibleCount : List Bool → Nat
  | [] => 0
  | d :: rest => if d then visibleCount rest + 1 else 0

/-- Whether the entry at index `k` of the allocation order is visible. -/
def isVisible (durable : List Bool) (k : Nat) : Bool :=
  decide (k < visibleCount durable)

theorem visibleCount_le_length (durable : List Bool) :
    visibleCount durable ≤ durable.length := by
  induction durable with
  | nil => simp [visibleCount]
  | cons d rest ih =>
      by_cases hd : d = true
      · simp [visibleCount, hd]; omega
      · simp only [Bool.not_eq_true] at hd
        simp [visibleCount, hd]

theorem visibleCount_durable (durable : List Bool) : ∀ i : Nat,
    i < visibleCount durable → durable.getD i true = true := by
  induction durable with
  | nil => intro i h; simp [visibleCount] at h
  | cons d rest ih =>
      intro i h
      by_cases hd : d = true
      · cases i with
        | zero => simp [hd]
        | succ i =>
            simp [visibleCount, hd] at h
            simpa using ih i (by omega)
      · simp only [Bool.not_eq_true] at hd
        simp [visibleCount, hd] at h

theorem visibleCount_le_of_hole (durable : List Bool) : ∀ j : Nat,
    durable.getD j true = false → visibleCount durable ≤ j := by
  induction durable with
  | nil => intro j h; simp at h
  | cons d rest ih =>
      intro j h
      cases j with
      | zero =>
          simp at h
          simp [visibleCount, h]
      | succ j =>
          by_cases hd : d = true
          · simp [visibleCount, hd]
            have := ih j (by simpa using h)
            omega
          · simp only [Bool.not_eq_true] at hd
            simp [visibleCount, hd]

theorem parseOpKind_i : parseOpKind "i" = some OpKind.insert := by decide

theorem parseOpKind_u : parseOpKind "u" = some OpKind.update := by decide

theorem parseOpKind_d : parseOpKind "d" = some OpKind.delete := by decide

theorem parseOpKind_c : parseOpKind "c" = some OpKind.command := by decide

theorem applyOperation_update_miss_initial (r : RawOp) (crit : Doc) (S : DbState)
    (hu : r.opstr = "u") (ho2 : r.o2 = some crit)
    (habs : hasDoc (assocGetD S.collections r.ns []) crit.id = false) :
    applyOperation r false S = Except.ok S := by
  rcases r with ⟨ostr, ns, o, o2⟩
  simp only at hu ho2
  subst hu
  subst ho2
  simp only [applyOperation, parseOpKind_u]
  simp only at habs
  simp [habs]

theorem applyOperation_update_miss_steady (r : RawOp) (crit : Doc) (S : DbState)
    (hu : r.opstr = "u") (ho2 : r.o2 = some crit) :
    applyOperation r true S = Except.ok
      { S with
        collections :=
          assocSet S.collections r.ns
            (upsertDoc (assocGetD S.collections r.ns []) ⟨crit.id, r.o.fields⟩) } := by
  rcases r with ⟨ostr, ns, o, o2⟩
  simp only at hu ho2
  subst hu
  subst ho2
  simp [applyOperation, parseOpKind_u]

theorem buildInsertEntries_maps (ns : String) (uuid sessionId : Option Nat)
    (fromMigrate : Bool) : ∀ (docs : List InsertStatement) (slots : List OplogSlot),
    docs.length = slots.length →
      (buildInsertEntries ns uuid sessionId fromMigrate docs slots).map (fun e => e.doc) =
          docs.map (fun d => d.doc) ∧
        (buildInsertEntries ns uuid sessionId fromMigrate docs slots).map
            (fun e => some e.slot.opTime) =
          slots.map (fun s => some s.opTime) := by
  intro docs
  induction docs with
  | nil =>
      intro slots h
      cases slots with
      | nil => simp [buildInsertEntries]
      | cons s ss => simp at h
  | cons d docs ih =>
      intro slots h
      cases slots with
      | nil => simp at h
      | cons s slots =>
          simp only [buildInsertEntries, List.map_cons]
          have := ih slots (by simpa using h)
          simp [this.1, this.2]

/-- C1: replaying a valid insert, delete, or steady-state update entry is
idempotent — applying the entry to the state it produced returns that state
unchanged, so a duplicate key on a replayed insert and a delete of an
already-absent document are not errors — and applying the same
index-creation command twice leaves the same single index registered. -/
theorem idempotent_replay :
    (∀ (r : RawOp) (b : Bool) (S S2 : DbState),
        r.opstr = "i" ∨ r.opstr = "d" →
        applyOperation r b S = Except.ok S2 →
        applyOperation r b S2 = Except.ok S2) ∧
    (∀ (r : RawOp) (S S2 : DbState),
        r.opstr = "u" →
        applyOperation r true S = Except.ok S2 →
        applyOperation r true S2 = Except.ok S2) ∧
    (∀ (spec : IndexSpec) (ns : String) (b : Bool) (S S2 : DbState),
        applyCommand_inlock (Command.createIndexes ns spec) b S = Except.ok S2 →
        applyCommand_inlock (Command.createIndexes ns spec) b S2 = Except.ok S2 ∧
          (spec ∉ assocGetD S.indexes ns [] →
            (assocGetD S2.indexes ns []).count spec = 1)) := by
  refine ⟨?_, ?_, ?_⟩
  · rintro ⟨ostr, ns, o, o2⟩ b S S2 (hk | hk) h <;> simp only at hk <;> subst hk
    · simp only [applyOperation, parseOpKind_i] at h ⊢
      rw [Except.ok.injEq] at h
      subst h
      simp [assocGetD_assocSet, upsertDoc_upsertDoc, assocSet_assocSet]
    · simp only [applyOperation, parseOpKind_d] at h ⊢
      rw [Except.ok.injEq] at h
      subst h
      simp [assocGetD_assocSet, removeDoc_removeDoc, assocSet_assocSet]
  · rintro ⟨ostr, ns, o, o2⟩ S S2 hk h
    simp only at hk
    subst hk
    cases o2 with
    | none => simp [applyOperation, parseOpKind_u] at h
    | some crit =>
        simp only [applyOperation, parseOpKind_u, Bool.or_true, if_true] at h ⊢
        rw [Except.ok.injEq] at h
        subst h
        simp [assocGetD_assocSet, upsertDoc_upsertDoc, assocSet_assocSet]
  · intro spec ns b S S2 h
    simp only [applyCommand_inlock, createIndexForApplyOps] at h ⊢
    split_ifs at h with h1 h2 h3 h4
    · rw [Except.ok.injEq] at h
      subst h
      refine ⟨?_, fun hnot => absurd h3 hnot⟩
      simp [h1, h2, h3]
    · rw [Except.ok.injEq] at h
      subst h
      constructor
      · simp [h1, h2, assocGetD_assocSet]
      · intro _
        simp [assocGetD_assocSet, List.count_append, List.count_eq_zero.2 h3]

/-- C4: when the update target is absent from the local state, steady-state
apply succeeds and leaves the document present with the update's effective
fields (the update is converted to an upsert), while initial-sync apply of
the same entry succeeds with the state unchanged and reports no error. -/
theorem mode_sensitivity (r : RawOp) (crit : Doc) (S : DbState)
    (hu : r.opstr = "u") (ho2 : r.o2 = some crit)
    (habs : hasDoc (assocGetD S.collections r.ns []) crit.id = false) :
    (∃ S2 : DbState, applyOperation r true S = Except.ok S2 ∧
        findDoc (assocGetD S2.collections r.ns []) crit.id =
          some ⟨crit.id, r.o.fields⟩) ∧
    applyOperation r false S = Except.ok S := by
  refine ⟨⟨_, applyOperation_update_miss_steady r crit S hu ho2, ?_⟩,
    applyOperation_update_miss_initial r crit S hu ho2 habs⟩
  simp only [assocGetD_assocSet]
  exact findDoc_upsertDoc ⟨crit.id, r.o.fields⟩ (assocGetD S.collections r.ns [])

/-- C5: visibility is the longest all-durable front segment of the
allocation order: an entry is visible only when every earlier entry is
visible and durable, and a single undurable earlier entry keeps every later
entry invisible even when that later entry's own write already completed. -/
theorem visibility_ordering (durable : List Bool) (j k : Nat) :
    (j < k → isVisible durable k = true → isVisible durable j = true) ∧
    (j ≤ k → isVisible durable k = true → durable.getD j true = true) ∧
    (j < k → durable.getD j true = false → isVisible durable k = false) := by
  refine ⟨?_, ?_, ?_⟩
  · intro hjk hk
    simp only [isVisible, decide_eq_true_eq] at hk ⊢
    omega
  · intro hjk hk
    simp only [isVisible, decide_eq_true_eq] at hk
    exact visibleCount_durable durable j (by omega)
  · intro hjk hj
    have := visibleCount_le_of_hole durable j hj
    simp only [isVisible, decide_eq_false_iff_not]
    omega

/-- C6: with replication logging disabled, logOp is a no-op — it returns a
null optime and leaves the oplog state unmodified — and logInsertOps
likewise returns a null optime for each input statement with the state
unmodified; the null optime is a successful result, not an error. -/
theorem disabled_logging_noop (opstr ns : String) (uuid : Option Nat) (obj : Doc)
    (o2 : Option Doc) (fromMigrate : Bool) (sessionId : Option Nat) (stmtId : Int)
    (oplogLink : OplogLink) (docs : List InsertStatement) (st : OplogState)
    (hdis : st.enabled = false) :
    logOp opstr ns uuid obj o2 fromMigrate sessionId stmtId oplogLink st =
      Except.ok (none, st) ∧
    logInsertOps ns uuid sessionId docs fromMigrate st =
      (docs.map (fun _ => none), st) := by
  constructor
  · simp [logOp, hdis]
  · simp [logInsertOps, hdis]

/-- C7: for every non-empty batch handed to logInsertOps the returned vector
holds exactly one optime per input statement; with logging enabled, the
appended entries carry the input documents in input order, and their slots'
optimes are exactly the returned optimes, index for index. -/
theorem logInsertOps_per_statement (ns : String) (uuid sessionId : Option Nat)
    (docs : List InsertStatement) (fromMigrate : Bool) (st : OplogState)
    (_hne : docs ≠ []) :
    ((logInsertOps ns uuid sessionId docs fromMigrate st).1).length = docs.length ∧
    (st.enabled = true →
      ∃ new : List OplogEntry,
        ((logInsertOps ns uuid sessionId docs fromMigrate st).2).entries =
          st.entries ++ new ∧
        new.map (fun e => e.doc) = docs.map (fun d => d.doc) ∧
        new.map (fun e => some e.slot.opTime) =
          (logInsertOps ns uuid sessionId docs fromMigrate st).1) := by
  by_cases hen : st.enabled = true
  · have hlen := getNextOpTimes_length docs.length st.alloc
    have hmaps := buildInsertEntries_maps ns uuid sessionId fromMigrate docs
      (getNextOpTimes st.alloc docs.length).1 hlen.symm
    constructor
    · simp [logInsertOps, hen, hlen]
    · intro _
      refine ⟨buildInsertEntries ns uuid sessionId fromMigrate docs
          (getNextOpTimes st.alloc docs.length).1, ?_, hmaps.1, ?_⟩
      · simp [logInsertOps, hen]
      · simp [logInsertOps, hen, hmaps.2]
  · simp only [Bool.not_eq_true] at hen
    constructor
    · simp [logInsertOps, hen]
    · intro h
      rw [h] at hen
      cases hen

/-- C9: structurally invalid entries and irreconcilable commands produce a
returned, descriptive failure Status rather than a crash: an unrecognized
kind code, an update missing its criteria document, a command routed to the
non-command apply path, an unknown command, a malformed index specification,
and a namespace that cannot be created each yield a non-empty error. -/
theorem apply_errors_returned :
    (∀ (r : RawOp) (b : Bool) (S : DbState),
        parseOpKind r.opstr = none →
        ∃ msg, applyOperation r b S = Except.error msg ∧ msg ≠ "") ∧
    (∀ (r : RawOp) (b : Bool) (S : DbState),
        r.opstr = "u" → r.o2 = none →
        ∃ msg, applyOperation r b S = Except.error msg ∧ msg ≠ "") ∧
    (∀ (r : RawOp) (b : Bool) (S : DbState),
        r.opstr = "c" →
        ∃ msg, applyOperation r b S = Except.error msg ∧ msg ≠ "") ∧
    (∀ (name : String) (b : Bool) (S : DbState),
        ∃ msg, applyCommand_inlock (Command.unknownCommand name) b S =
          Except.error msg ∧ msg ≠ "") ∧
    (∀ (ns : String) (spec : IndexSpec) (b : Bool) (S : DbState),
        validIndexSpec spec = false ∨ ns = "" →
        ∃ msg, applyCommand_inlock (Command.createIndexes ns spec) b S =
          Except.error msg ∧ msg ≠ "") ∧
    (∀ (b : Bool) (S : DbState),
        ∃ msg, applyCommand_inlock (Command.createCollection "") b S =
          Except.error msg ∧ msg ≠ "") := by
  refine ⟨?_, ?_, ?_, ?_, ?_, ?_⟩
  · intro r b S h
    exact ⟨"invalid operation type in oplog entry", by simp [applyOperation, h], by decide⟩
  · rintro ⟨ostr, ns, o, o2⟩ b S hk h2
    simp only at hk h2
    subst hk
    subst h2
    exact ⟨"failed to apply update: missing criteria document",
      by simp [applyOperation, parseOpKind_u], by decide⟩
  · rintro ⟨ostr, ns, o, o2⟩ b S hk
    simp only at hk
    subst hk
    exact ⟨"commands cannot be applied by the non-command apply path",
      by simp [applyOperation, parseOpKind_c], by decide⟩
  · intro name b S
    exact ⟨"invalid command in oplog entry", by simp [applyCommand_inlock], by decide⟩
  · intro ns spec b S h
    by_cases hns : ns = ""
    · exact ⟨"invalid namespace for index creation",
        by simp [applyCommand_inlock, hns], by decide⟩
    · rcases h with h | h
      · exact ⟨"malformed index specification",
          by simp [applyCommand_inlock, createIndexForApplyOps, hns, h], by decide⟩
      · exact absurd h hns
  · intro b S
    exact ⟨"cannot create a namespace with an empty name",
      by simp [applyCommand_inlock], by decide⟩

/-- C10: the omitted arguments of applyOperation_inlock default to
`inSteadyStateReplication = false` — the initial-sync semantics, with no
update-to-upsert conversion — and to an empty stats callback that records
nothing; successful application leaves the metrics counter unchanged, and
steady-state behaviour requires explicit opt-in. -/
theorem applyOperation_inlock_defaults :
    (∀ (r : RawOp) (S : DbState) (m : Nat),
        applyOperation_inlock r S m = applyOperation_inlock r S m false emptyStatsFn) ∧
    (∀ (r : RawOp) (S : DbState) (m : Nat) (S2 : DbState) (m2 : Nat),
        applyOperation_inlock r S m = Except.ok (S2, m2) → m2 = m) ∧
    (∀ (r : RawOp) (crit : Doc) (S : DbState) (m : Nat),
        r.opstr = "u" → r.o2 = some crit →
        hasDoc (assocGetD S.collections r.ns []) crit.id = false →
        applyOperation_inlock r S m = Except.ok (S, m)) := by
  refine ⟨fun r S m => rfl, ?_, ?_⟩
  · intro r S m S2 m2 h
    unfold applyOperation_inlock at h
    cases ha : applyOperation r false S with
    | ok S3 =>
        rw [ha] at h
        simp [emptyStatsFn] at h
        exact h.2.symm
    | error e =>
        rw [ha] at h
        simp at h
  · intro r crit S m hu ho2 habs
    unfold applyOperation_inlock
    rw [applyOperation_update_miss_initial r crit S hu ho2 habs]
    rfl

/-- C8: entry construction is a pure function of its inputs that validates
them: it accepts exactly the inputs whose kind code is one of the six
recognized codes, whose criteria document is present for an update and
absent for an insert or delete, and whose namespace is non-empty — except
for the database-marker kind, where the namespace is the database name with
the trailing separator. -/
theorem buildEntry_validation (opstr ns : String) (uuid : Option Nat) (doc : Doc)
    (o2 : Option Doc) (sessionId : Option Nat) (stmtId : Int) (fromMigrate : Bool)
    (link : OplogLink) (slot : OplogSlot) :
    statusOK (buildEntry opstr ns uuid doc o2 sessionId stmtId fromMigrate link slot) = true ↔
      ∃ k, parseOpKind opstr = some k ∧
        (k = OpKind.update → o2 ≠ none) ∧
        ((k = OpKind.insert ∨ k = OpKind.delete) → o2 = none) ∧
        (k ≠ OpKind.dbMarker → ns ≠ "") ∧
        (k = OpKind.dbMarker → ns.endsWith "." = true) := by
  cases hk : parseOpKind opstr with
  | none => simp [buildEntry, hk, statusOK]
  | some k =>
      simp only [buildEntry, hk, Option.some.injEq, exists_eq_left']
      split_ifs with h1 h2 h3 h4 h5
      · exact iff_of_false (by simp [statusOK]) (fun hP => hP.1 h1.1 h1.2)
      · exact iff_of_false (by simp [statusOK]) (fun hP => h2.2 (hP.2.1 h2.1))
      · refine iff_of_true (by simp [statusOK]) ⟨fun hup => ?_, fun hins => ?_,
          fun hndb => absurd h3 hndb, fun _ => h4⟩
        · rw [h3] at hup
          simp at hup
        · rw [h3] at hins
          simp at hins
      · exact iff_of_false (by simp [statusOK]) (fun hP => h4 (hP.2.2.2 h3))
      · exact iff_of_false (by simp [statusOK]) (fun hP => hP.2.2.1 h3 h5)
      · exact iff_of_true (by simp [statusOK]) ⟨fun hup ho2 => h1 ⟨hup, ho2⟩,
          fun hins => Classical.byContradiction (fun hne => h2 ⟨hins, hne⟩),
          fun _ => h5, fun hdb => absurd hdb h3⟩

theorem idempotent_replay_witness :
    applyOperation ⟨"i", "test.coll", ⟨1, [("a", 2)]⟩, none⟩ true
        ⟨[("test.coll", [⟨1, [("a", 2)]⟩])], []⟩ =
      Except.ok ⟨[("test.coll", [⟨1, [("a", 2)]⟩])], []⟩ :=
  idempotent_replay.1 ⟨"i", "test.coll", ⟨1, [("a", 2)]⟩, none⟩ true ⟨[], []⟩
    ⟨[("test.coll", [⟨1, [("a", 2)]⟩])], []⟩ (Or.inl rfl) (by rfl)

theorem mode_sensitivity_witness :
    (∃ S2 : DbState,
        applyOperation ⟨"u", "test.coll", ⟨0, [("b", 5)]⟩, some ⟨7, []⟩⟩ true ⟨[], []⟩ =
          Except.ok S2 ∧
        findDoc (assocGetD S2.collections "test.coll" []) 7 = some ⟨7, [("b", 5)]⟩) ∧
    applyOperation ⟨"u", "test.coll", ⟨0, [("b", 5)]⟩, some ⟨7, []⟩⟩ false ⟨[], []⟩ =
      Except.ok ⟨[], []⟩ :=
  mode_sensitivity ⟨"u", "test.coll", ⟨0, [("b", 5)]⟩, some ⟨7, []⟩⟩ ⟨7, []⟩ ⟨[], []⟩
    rfl rfl (by rfl)

theorem visibility_ordering_witness :
    isVisible [true, false, true] 2 = false :=
  (visibility_ordering [true, false, true] 1 2).2.2 (by decide) (by decide)

theorem disabled_logging_noop_witness :
    logOp "i" "test.coll" none ⟨1, []⟩ none false none 0 ⟨none, none, none⟩
        ⟨false, ⟨1, 0, 0⟩, []⟩ =
      Except.ok (none, ⟨false, ⟨1, 0, 0⟩, []⟩) ∧
    logInsertOps "test.coll" none none [⟨0, none, ⟨1, []⟩⟩] false ⟨false, ⟨1, 0, 0⟩, []⟩ =
      ([none], ⟨false, ⟨1, 0, 0⟩, []⟩) :=
  disabled_logging_noop "i" "test.coll" none ⟨1, []⟩ none false none 0 ⟨none, none, none⟩
    [⟨0, none, ⟨1, []⟩⟩] ⟨false, ⟨1, 0, 0⟩, []⟩ rfl

theorem logInsertOps_per_statement_witness :
    ((logInsertOps "test.coll" none none [⟨0, none, ⟨1, []⟩⟩] false
        ⟨true, ⟨3, 10, 5⟩, []⟩).1).length = 1 :=
  (logInsertOps_per_statement "test.coll" none none [⟨0, none, ⟨1, []⟩⟩] false
    ⟨true, ⟨3, 10, 5⟩, []⟩ (by decide)).1

theorem buildEntry_validation_witness :
    statusOK (buildEntry "u" "test.coll" none ⟨1, []⟩ (some ⟨2, []⟩) none 0 false
      ⟨none, none, none⟩ ⟨⟨1, 1⟩, 0⟩) = true :=
  (buildEntry_validation "u" "test.coll" none ⟨1, []⟩ (some ⟨2, []⟩) none 0 false
      ⟨none, none, none⟩ ⟨⟨1, 1⟩, 0⟩).mpr
    ⟨OpKind.update, by decide, by decide, by decide, by decide, by decide⟩

theorem apply_errors_returned_witness :
    ∃ msg, applyOperation ⟨"z", "test.coll", ⟨1, []⟩, none⟩ true ⟨[], []⟩ =
      Except.error msg ∧ msg ≠ "" :=
  apply_errors_returned.1 ⟨"z", "test.coll", ⟨1, []⟩, none⟩ true ⟨[], []⟩ (by decide)

theorem applyOperation_inlock_defaults_witness :
    applyOperation_inlock ⟨"u", "test.coll", ⟨0, [("b", 5)]⟩, some ⟨7, []⟩⟩ ⟨[], []⟩ 3 =
      Except.ok (⟨[], []⟩, 3) :=
  applyOperation_inlock_defaults.2.2 ⟨"u", "test.coll", ⟨0, [("b", 5)]⟩, some ⟨7, []⟩⟩
    ⟨7, []⟩ ⟨[], []⟩ 3 rfl rfl (by rfl)

end MongoOplog
